import Mathlib

/-!
Verification development for the mellow-strategy-sdk backtesting engine.

The engine modules (`mellow_sdk/uniswap_utils.py`, `positions.py`,
`portfolio.py`, `backtest.py`, `primitives.py`) are not part of the source
tree available here (only documentation and example notebooks are), so the
corresponding definitions are modelled from the specification, as marked in
their doc comments.  The example strategy `StrategyCatchThePrice` from
`examples/mellow_sdk_article.ipynb` is translated directly from its source.

Conventions of the embedding:
* token amounts, prices and timestamps are rationals (`ℚ`); the engine's
  floating-point numbers are modelled exactly, and the spec's "within
  epsilon" statements become exact equalities;
* the square-root routine applied to prices (`np.sqrt` in the code) is
  abstracted as an explicit function parameter `sq : ℚ → ℚ`; theorems assume
  of `sq` only the finitely many order/positivity facts a real square root
  satisfies at the prices involved;
* fallible operations return `Except EngineError`.
-/

namespace Mellow

/-- Errors raised by the engine (spec §7 taxonomy), plus `typeError` modelling
the Python `TypeError`/`KeyError`-style failures reachable in the example
strategy when a `None` sentinel is used in arithmetic or a position has an
unexpected variant. -/
inductive EngineError where
  | invalidInterval
  | notOptimal
  | insufficientFunds
  | duplicateName
  | notFound
  | outOfRange
  | typeError
  deriving DecidableEq

/-! ### Liquidity math (spec §4.1, `UniswapLiquidityAligner`) -/

/-- Modelled from the spec: the amount of token X represented by liquidity `l`
on the interval `[a, b]` at price `p` (`amountsForLiquidity`, X component):
`x = l·(1/√p − 1/√b)`, clamped so that out-of-range sides evaluate to the
boundary amount.  `sq` is the square-root routine applied to prices. -/
def liqToX (sq : ℚ → ℚ) (l p a b : ℚ) : ℚ :=
  if b ≤ p then 0 else l * (1 / sq (max p a) - 1 / sq b)

/-- Modelled from the spec: the amount of token Y represented by liquidity `l`
on the interval `[a, b]` at price `p` (`amountsForLiquidity`, Y component):
`y = l·(√p − √a)`, clamped at the interval bounds. -/
def liqToY (sq : ℚ → ℚ) (l p a b : ℚ) : ℚ :=
  if p ≤ a then 0 else l * (sq (min p b) - sq a)

/-- Modelled from the spec: `amountsForLiquidity(L, p, a, b) -> (x, y)` of the
liquidity aligner (absent from src/): token amounts corresponding to
liquidity `l` at price `p` on `[a, b]`. -/
def amountsForLiquidity (sq : ℚ → ℚ) (l p a b : ℚ) : ℚ × ℚ :=
  (liqToX sq l p a b, liqToY sq l p a b)

/-- Modelled from the spec: the single-sided liquidity solution determined by
an amount `x` of token X at price `p` on `[a, b]`. -/
def xToLiq (sq : ℚ → ℚ) (x p a b : ℚ) : ℚ :=
  if b ≤ p then 0 else x / (1 / sq (max p a) - 1 / sq b)

/-- Modelled from the spec: the single-sided liquidity solution determined by
an amount `y` of token Y at price `p` on `[a, b]`. -/
def yToLiq (sq : ℚ → ℚ) (y p a b : ℚ) : ℚ :=
  if p ≤ a then 0 else y / (sq (min p b) - sq a)

/-- Modelled from the spec: `liquidityForAmounts(x, y, p, a, b) -> L` of the
liquidity aligner (absent from src/): when `p` is inside the interval, `L` is
the minimum of the two single-sided solutions; outside, the in-range side
determines `L`. -/
def liquidityForAmounts (sq : ℚ → ℚ) (x y p a b : ℚ) : ℚ :=
  if p ≤ a then xToLiq sq x p a b
  else if b ≤ p then yToLiq sq y p a b
  else min (xToLiq sq x p a b) (yToLiq sq y p a b)

/-- Modelled from the spec: the deposit-optimality check of the interval
position (`NotOptimal` guard): the pair `(x, y)` divides evenly into the
interval at price `p`, i.e. below the range only X is held, above it only Y,
and inside it the two single-sided liquidity solutions agree. -/
def isOptimalPair (sq : ℚ → ℚ) (x y p a b : ℚ) : Bool :=
  if p ≤ a then decide (y = 0)
  else if b ≤ p then decide (x = 0)
  else decide (x * (sq p - sq a) = y * (1 / sq p - 1 / sq b))

/-- Modelled from the spec: `swapToOptimal(x, y, p, swapFee) -> (dx, dy)` of
the liquidity aligner (`get_amounts_for_swap_to_optimal` in the code, absent
from src/): the amount of one token to convert so that depositing the
post-swap amounts yields zero leftover, accounting for the swap fee reducing
the received amount; `(0, 0)` when the pair is already optimal or the price
is fully outside the interval. -/
def swapToOptimal (sq : ℚ → ℚ) (x y p a b fee : ℚ) : ℚ × ℚ :=
  if p ≤ a ∨ b ≤ p then (0, 0)
  else if y = x * ((sq p - sq a) / (1 / sq p - 1 / sq b)) then (0, 0)
  else if y < x * ((sq p - sq a) / (1 / sq p - 1 / sq b)) then
    ((x * ((sq p - sq a) / (1 / sq p - 1 / sq b)) - y)
       / (p * (1 - fee) + (sq p - sq a) / (1 / sq p - 1 / sq b)), 0)
  else
    (0, (y - x * ((sq p - sq a) / (1 / sq p - 1 / sq b)))
       / (1 + (sq p - sq a) / (1 / sq p - 1 / sq b) * (1 - fee) / p))

/-- Modelled from the spec: `get_amounts_after_optimal_swap` of the liquidity
aligner (absent from src/): the token amounts held after performing the swap
computed by `swapToOptimal`, the received side reduced by the swap fee. -/
def getAmountsAfterOptimalSwap (sq : ℚ → ℚ) (x y p a b fee : ℚ) : ℚ × ℚ :=
  let dxy := swapToOptimal sq x y p a b fee
  (x - dxy.1 + dxy.2 * (1 - fee) / p, y - dxy.2 + dxy.1 * p * (1 - fee))

/-! ### Balance position (spec §4.2, `BiCurrencyPosition`) -/

/-- Modelled from the spec: the balance position variant
(`BiCurrencyPosition` in `mellow_sdk/positions.py`, absent from src/): idle
token holdings `(x, y)`, optional per-token interest rates, a swap-fee rate,
and the running total `costs` of fixed transaction costs charged so far
(spec §3: the fixed cost is a bookkeeping decrement of portfolio value, not a
token-balance change). -/
structure BiCurrencyPosition where
  name : String
  swap_fee : ℚ
  gas_cost : ℚ
  x : ℚ
  y : ℚ
  x_interest : Option ℚ
  y_interest : Option ℚ
  costs : ℚ
  deriving DecidableEq

/-- Modelled from the spec: `deposit(dx, dy)` of the balance position:
unconditionally increases the held amounts; charges the fixed transaction
cost. -/
def BiCurrencyPosition.deposit (pos : BiCurrencyPosition) (dx dy : ℚ) :
    BiCurrencyPosition :=
  { pos with x := pos.x + dx, y := pos.y + dy, costs := pos.costs + pos.gas_cost }

/-- Modelled from the spec: `withdraw(dx, dy)` of the balance position: fails
with `insufficientFunds` if a requested amount exceeds the holding beyond the
configurable tolerance `eps`; an excess within the tolerance is clamped to
the holding instead of rejected.  Charges the fixed transaction cost. -/
def BiCurrencyPosition.withdraw (pos : BiCurrencyPosition) (dx dy eps : ℚ) :
    Except EngineError ((ℚ × ℚ) × BiCurrencyPosition) :=
  if pos.x + eps < dx ∨ pos.y + eps < dy then .error .insufficientFunds
  else
    let dx' := min dx pos.x
    let dy' := min dy pos.y
    .ok ((dx', dy'),
      { pos with x := pos.x - dx', y := pos.y - dy',
                 costs := pos.costs + pos.gas_cost })

/-- Modelled from the spec: `swapXToY(dx, price)` of the balance position:
converts `dx` of X into `dx·price·(1 − fee)` of Y; fails with
`insufficientFunds` if the source amount exceeds the holding. -/
def BiCurrencyPosition.swap_x_to_y (pos : BiCurrencyPosition) (dx price : ℚ) :
    Except EngineError BiCurrencyPosition :=
  if pos.x < dx then .error .insufficientFunds
  else .ok { pos with x := pos.x - dx,
                      y := pos.y + dx * price * (1 - pos.swap_fee),
                      costs := pos.costs + pos.gas_cost }

/-- Modelled from the spec: `swapYToX(dy, price)`, the dual conversion. -/
def BiCurrencyPosition.swap_y_to_x (pos : BiCurrencyPosition) (dy price : ℚ) :
    Except EngineError BiCurrencyPosition :=
  if pos.y < dy then .error .insufficientFunds
  else .ok { pos with x := pos.x + dy * (1 - pos.swap_fee) / price,
                      y := pos.y - dy,
                      costs := pos.costs + pos.gas_cost }

/-- Modelled from the spec: `accrueInterest(dt)`: applies the per-token APR
linearly over the elapsed time; a no-op when an interest rate is unset. -/
def BiCurrencyPosition.accrue_interest (pos : BiCurrencyPosition) (dt : ℚ) :
    BiCurrencyPosition :=
  { pos with x := pos.x + pos.x * (pos.x_interest.getD 0) * dt,
             y := pos.y + pos.y * (pos.y_interest.getD 0) * dt }

/-- Token value of a balance position in the Y numeraire at price `price`
(Y per X). -/
def BiCurrencyPosition.valueY (pos : BiCurrencyPosition) (price : ℚ) : ℚ :=
  pos.x * price + pos.y

/-- Value of a balance position net of the transaction costs charged to it
(spec §3: costs are subtracted from portfolio value). -/
def BiCurrencyPosition.valueNetY (pos : BiCurrencyPosition) (price : ℚ) : ℚ :=
  pos.valueY price - pos.costs

/-! ### Interval position (spec §4.3, `UniV3Position`) -/

/-- Modelled from the spec: the interval position variant (`UniV3Position` in
`mellow_sdk/positions.py`, absent from src/): an interval
`[lower_price, upper_price]`, liquidity `l`, accumulated-but-uncollected fees
`feeX`, `feeY`, the cumulative-fees-collected counters, and the running total
of fixed transaction costs charged. -/
structure UniV3Position where
  name : String
  lower_price : ℚ
  upper_price : ℚ
  fee_percent : ℚ
  gas_cost : ℚ
  l : ℚ
  feeX : ℚ
  feeY : ℚ
  cum_fees_x : ℚ
  cum_fees_y : ℚ
  costs : ℚ
  deriving DecidableEq

/-- Constructor of a fresh (EMPTY) interval position, as the Python
`UniV3Position(name, lower_price, upper_price, fee_percent, gas_cost)`. -/
def mkUniV3Position (name : String) (lower_price upper_price fee_percent gas_cost : ℚ) :
    UniV3Position :=
  { name, lower_price, upper_price, fee_percent, gas_cost,
    l := 0, feeX := 0, feeY := 0, cum_fees_x := 0, cum_fees_y := 0, costs := 0 }

/-- Modelled from the spec: `deposit(x, y, price)` of the interval position:
fails with `outOfRange` on a non-positive price and with `notOptimal` when
the pair does not divide evenly into the interval; otherwise establishes the
liquidity computed by the aligner and charges the fixed transaction cost. -/
def UniV3Position.deposit (sq : ℚ → ℚ) (pos : UniV3Position) (x y price : ℚ) :
    Except EngineError UniV3Position :=
  if price ≤ 0 then .error .outOfRange
  else if isOptimalPair sq x y price pos.lower_price pos.upper_price then
    .ok { pos with
      l := pos.l + liquidityForAmounts sq x y price pos.lower_price pos.upper_price,
      costs := pos.costs + pos.gas_cost }
  else .error .notOptimal

/-- Modelled from the spec: `withdraw(price)` of the interval position:
converts the current liquidity back to token amounts via
`amountsForLiquidity`, adds the uncollected fees, sets `l = 0`, charges the
fixed transaction cost and returns the total amounts; fails with `outOfRange`
on a non-positive price. -/
def UniV3Position.withdraw (sq : ℚ → ℚ) (pos : UniV3Position) (price : ℚ) :
    Except EngineError ((ℚ × ℚ) × UniV3Position) :=
  if price ≤ 0 then .error .outOfRange
  else
    let xy := amountsForLiquidity sq pos.l price pos.lower_price pos.upper_price
    .ok ((xy.1 + pos.feeX, xy.2 + pos.feeY),
      { pos with l := 0, feeX := 0, feeY := 0, costs := pos.costs + pos.gas_cost })

/-- Modelled from the spec: `chargeFees(priceBefore, priceAfter)`: the fee
owed is the fee tier's percentage of the position's share of the traded
notional that fell within its range, namely the increase of the position's
own virtual holding on the receiving side across the price move; a computed
negative quantity is clamped to zero.  Accumulates into `feeX`/`feeY`; does
not change `l`. -/
def UniV3Position.chargeFees (sq : ℚ → ℚ) (pos : UniV3Position) (price_0 price_1 : ℚ) :
    UniV3Position :=
  let x0 := liqToX sq pos.l price_0 pos.lower_price pos.upper_price
  let x1 := liqToX sq pos.l price_1 pos.lower_price pos.upper_price
  let y0 := liqToY sq pos.l price_0 pos.lower_price pos.upper_price
  let y1 := liqToY sq pos.l price_1 pos.lower_price pos.upper_price
  { pos with feeX := pos.feeX + max 0 ((x1 - x0) * pos.fee_percent),
             feeY := pos.feeY + max 0 ((y1 - y0) * pos.fee_percent) }

/-- Modelled from the spec: `collectFees()`: zeroes `feeX`/`feeY`, returns the
collected amounts and increments the cumulative-collected counters; does not
change `l`. -/
def UniV3Position.collectFees (pos : UniV3Position) : (ℚ × ℚ) × UniV3Position :=
  ((pos.feeX, pos.feeY),
   { pos with feeX := 0, feeY := 0,
              cum_fees_x := pos.cum_fees_x + pos.feeX,
              cum_fees_y := pos.cum_fees_y + pos.feeY })

/-- Sequentially charge fees to an interval position for a list of
`(price_0, price_1)` swap events, as the replay loop does once per swap
event. -/
def chargeFeesSeq (sq : ℚ → ℚ) (evs : List (ℚ × ℚ)) (pos : UniV3Position) :
    UniV3Position :=
  evs.foldl (fun q e => q.chargeFees sq e.1 e.2) pos

/-- Token value (holdings plus uncollected fees) of an interval position in
the Y numeraire at price `price`. -/
def UniV3Position.valueY (sq : ℚ → ℚ) (pos : UniV3Position) (price : ℚ) : ℚ :=
  (liqToX sq pos.l price pos.lower_price pos.upper_price + pos.feeX) * price
    + (liqToY sq pos.l price pos.lower_price pos.upper_price + pos.feeY)

/-- Value of an interval position net of the transaction costs charged to
it. -/
def UniV3Position.valueNetY (sq : ℚ → ℚ) (pos : UniV3Position) (price : ℚ) : ℚ :=
  pos.valueY sq price - pos.costs

/-! ### Portfolio (spec §4.4) -/

/-- The polymorphic position (spec §3): a tagged union of the two concrete
variants. -/
inductive Position where
  | bi : BiCurrencyPosition → Position
  | uni : UniV3Position → Position
  deriving DecidableEq

/-- The unique name of a position. -/
def Position.name : Position → String
  | .bi b => b.name
  | .uni u => u.name

/-- Transaction costs charged to a position so far. -/
def Position.costs : Position → ℚ
  | .bi b => b.costs
  | .uni u => u.costs

/-- Token value of a position in the Y numeraire, polymorphic over the
variant. -/
def Position.valueY (sq : ℚ → ℚ) : Position → ℚ → ℚ
  | .bi b, price => b.valueY price
  | .uni u, price => u.valueY sq price

/-- Modelled from the spec: the portfolio (`mellow_sdk/portfolio.py`, absent
from src/): an ordered collection of named positions, insertion order
preserved. -/
structure Portfolio where
  positions : List Position
  deriving DecidableEq

/-- The names of the portfolio's positions, in insertion order. -/
def Portfolio.names (pf : Portfolio) : List String :=
  pf.positions.map Position.name

/-- Modelled from the spec: `append(position)`: fails with `duplicateName`
when the name already exists, otherwise appends at the end. -/
def Portfolio.append (pf : Portfolio) (pos : Position) : Except EngineError Portfolio :=
  if pos.name ∈ pf.names then .error .duplicateName
  else .ok ⟨pf.positions ++ [pos]⟩

/-- Modelled from the spec: `remove(name)`: fails with `notFound` when the
name is absent, otherwise removes the position with that name. -/
def Portfolio.remove (pf : Portfolio) (n : String) : Except EngineError Portfolio :=
  if n ∈ pf.names then .ok ⟨pf.positions.filter (fun q => q.name ≠ n)⟩
  else .error .notFound

/-- Modelled from the spec: `get_position(name)`: fails with `notFound` when
the name is absent. -/
def Portfolio.getPosition (pf : Portfolio) (n : String) : Except EngineError Position :=
  match pf.positions.find? (fun q => q.name = n) with
  | some q => .ok q
  | none => .error .notFound

/-- In-place mutation of the position with name `n` (Python operations mutate
the object held by the portfolio through the reference returned by
`get_position`). -/
def Portfolio.updatePosition (pf : Portfolio) (n : String) (pos : Position) : Portfolio :=
  ⟨pf.positions.map (fun q => if q.name = n then pos else q)⟩

/-- Modelled from the spec: `totalValue(numeraire Y, price)`: the sum of the
positions' values minus the transaction costs charged so far (spec §3: the
fixed cost is subtracted from portfolio value). -/
def Portfolio.totalValueY (sq : ℚ → ℚ) (pf : Portfolio) (price : ℚ) : ℚ :=
  (pf.positions.map (fun q => q.valueY sq price)).sum
    - (pf.positions.map Position.costs).sum

/-! ### Event rows, history recorders and the backtest driver (spec §4.5, §6) -/

/-- One row of the replayed event log (spec §3): timestamp (seconds),
event kind (one of "mint" | "burn" | "swap"), and the prices before and
after the event. -/
structure Record where
  timestamp : ℚ
  event : String
  price_before : ℚ
  price : ℚ
  deriving DecidableEq

/-- One `PortfolioHistory` entry (spec §6): timestamp, per-position values
and the portfolio's total value. -/
structure PortfolioSnapshot where
  timestamp : ℚ
  position_values : List (String × ℚ)
  total_value : ℚ
  deriving DecidableEq

/-- One `IntervalHistory` entry (spec §6): timestamp and, per interval
position, `(name, lower, upper, liquidity, feeX, feeY)`. -/
structure IntervalSnapshot where
  timestamp : ℚ
  intervals : List (String × ℚ × ℚ × ℚ × ℚ × ℚ)
  deriving DecidableEq

/-- Build the portfolio snapshot recorded after an event. -/
def mkPortfolioSnapshot (sq : ℚ → ℚ) (record : Record) (pf : Portfolio) :
    PortfolioSnapshot :=
  ⟨record.timestamp,
   pf.positions.map (fun q => (q.name, q.valueY sq record.price)),
   pf.totalValueY sq record.price⟩

/-- Build the interval snapshot recorded after an event. -/
def mkIntervalSnapshot (record : Record) (pf : Portfolio) : IntervalSnapshot :=
  ⟨record.timestamp,
   pf.positions.filterMap (fun q =>
     match q with
     | .uni u => some (u.name, u.lower_price, u.upper_price, u.l, u.feeX, u.feeY)
     | .bi _ => none)⟩

/-- The strategy contract (spec §6): one callback taking the strategy's own
state, the event row and the portfolio, returning an optional action tag and
the updated state and portfolio, or a domain error that aborts the run. -/
def Strategy (σ : Type) : Type :=
  σ → Record → Portfolio → Except EngineError (Option String × σ × Portfolio)

/-- The mutable state of one backtest run. -/
structure BacktestState (σ : Type) where
  strat : σ
  portfolio : Portfolio
  portfolio_history : List PortfolioSnapshot
  rebalance_history : List (ℚ × String)
  interval_history : List IntervalSnapshot

/-- Modelled from the spec: one iteration of the backtest driver
(`Backtest.backtest` in `mellow_sdk/backtest.py`, absent from src/): invoke
the strategy's rebalance callback, then record one snapshot per history
recorder, appending to `RebalanceHistory` only when the returned action tag
is non-null; a strategy error aborts the run. -/
def backtestStep (sq : ℚ → ℚ) (strategy : Strategy σ) (st : BacktestState σ)
    (record : Record) : Except EngineError (BacktestState σ) :=
  match strategy st.strat record st.portfolio with
  | .error e => .error e
  | .ok (tag, s', pf') =>
      .ok { strat := s'
            portfolio := pf'
            portfolio_history := st.portfolio_history ++ [mkPortfolioSnapshot sq record pf']
            rebalance_history := st.rebalance_history ++
              (match tag with
               | some t => [(record.timestamp, t)]
               | none => [])
            interval_history := st.interval_history ++ [mkIntervalSnapshot record pf'] }

/-- Modelled from the spec: the backtest driver: a single deterministic pass
over the event rows, folding `backtestStep`. -/
def backtest (sq : ℚ → ℚ) (strategy : Strategy σ) (st : BacktestState σ)
    (records : List Record) : Except EngineError (BacktestState σ) :=
  records.foldlM (backtestStep sq strategy) st

/-! ### Tick-bound constants and the example strategy
(`examples/mellow_sdk_article.ipynb`) -/

/-- Modelled from the spec: `MIN_TICK` of `mellow_sdk/primitives.py` (absent
from src/), the Uniswap v3 minimum tick. -/
def MIN_TICK : ℤ := -887272

/-- Modelled from the spec: `MAX_TICK` of `mellow_sdk/primitives.py` (absent
from src/), the Uniswap v3 maximum tick. -/
def MAX_TICK : ℤ := 887272

/-- The price of one tick: `1.0001 ^ t`. -/
def tickPow (t : ℤ) : ℚ := (10001 / 10000 : ℚ) ^ t

/-- The lower bound used by `StrategyCatchThePrice.create_pos`:
`max(1.0001 ** MIN_TICK, price - width)`. -/
def catchLowerPrice (price width : ℚ) : ℚ :=
  max (tickPow MIN_TICK) (price - width)

/-- The upper bound used by `StrategyCatchThePrice.create_pos`:
`min(1.0001 ** MAX_TICK, price + width)`. -/
def catchUpperPrice (price width : ℚ) : ℚ :=
  min (tickPow MAX_TICK) (price + width)

/-- The constructor-supplied parameters and mutable attributes of
`StrategyCatchThePrice` (notebook `mellow_sdk_article.ipynb`). -/
structure CatchState where
  fee_percent : ℚ
  gas_cost : ℚ
  swap_fee : ℚ
  width : ℚ
  seconds_to_hold : ℚ
  last_mint_price : Option ℚ
  last_timestamp_in_interval : Option ℚ
  pos_num : Option ℕ
  deriving DecidableEq

/-- The name `f'UniV3_{self.pos_num}'` the strategy derives from its position
counter (with the Python rendering of the `None` sentinel). -/
def posNumName : Option ℕ → String
  | none => "UniV3_None"
  | some n => "UniV3_" ++ toString n

/-- The fresh interval position minted by `create_pos` at `price`. -/
def catchNewUniPosition (s : CatchState) (n : ℕ) (price : ℚ) : UniV3Position :=
  mkUniV3Position (posNumName (some n)) (catchLowerPrice price s.width)
    (catchUpperPrice price s.width) s.fee_percent s.gas_cost

/-- `StrategyCatchThePrice.create_pos` (notebook source): swaps `x_in, y_in`
into the right proportion through the `main_vault` balance position and mints
a new interval position around `price`; `eps` is the configurable withdrawal
tolerance. -/
def StrategyCatchThePrice.create_pos (sq : ℚ → ℚ) (eps : ℚ) (s : CatchState)
    (x_in y_in price timestamp : ℚ) (pf : Portfolio) :
    Except EngineError (CatchState × Portfolio) := do
  let n : ℕ := match s.pos_num with | none => 1 | some k => k + 1
  let pos ← pf.getPosition "main_vault"
  let bi_cur ← (match pos with
    | .bi b => Except.ok b
    | .uni _ => Except.error EngineError.typeError)
  let bi₁ := bi_cur.deposit x_in y_in
  let pf₁ := pf.updatePosition "main_vault" (.bi bi₁)
  let uni_pos := catchNewUniPosition s n price
  let pf₂ ← pf₁.append (.uni uni_pos)
  let dxy := swapToOptimal sq x_in y_in price uni_pos.lower_price
    uni_pos.upper_price bi_cur.swap_fee
  let bi₂ ← (if 0 < dxy.1 then bi₁.swap_x_to_y dxy.1 price else Except.ok bi₁)
  let bi₃ ← (if 0 < dxy.2 then bi₂.swap_y_to_x dxy.2 price else Except.ok bi₂)
  let pf₃ := pf₂.updatePosition "main_vault" (.bi bi₃)
  let xyu := getAmountsAfterOptimalSwap sq x_in y_in price uni_pos.lower_price
    uni_pos.upper_price bi_cur.swap_fee
  let wd ← bi₃.withdraw (xyu.1 - 1 / 1000000000) (xyu.2 - 1 / 1000000000) eps
  let pf₄ := pf₃.updatePosition "main_vault" (.bi wd.2)
  let uni₁ ← uni_pos.deposit sq xyu.1 xyu.2 price
  let pf₅ := pf₄.updatePosition uni_pos.name (.uni uni₁)
  Except.ok ({ s with pos_num := some n,
                      last_mint_price := some price,
                      last_timestamp_in_interval := some timestamp }, pf₅)

/-- `StrategyCatchThePrice.rebalance` (notebook source): processes one event
row; non-swap events return `None` immediately; on the first swap the
portfolio is initialized; afterwards fees are charged and the position is
re-minted when the price has been out of the interval for longer than
`seconds_to_hold`. -/
def StrategyCatchThePrice.rebalance (sq : ℚ → ℚ) (eps : ℚ) (s : CatchState)
    (record : Record) (pf : Portfolio) :
    Except EngineError (Option String × CatchState × Portfolio) :=
  if record.event ≠ "swap" then .ok (none, s, pf)
  else if pf.positions.length = 0 then do
    let bi_cur : BiCurrencyPosition :=
      { name := "main_vault", swap_fee := s.swap_fee, gas_cost := s.gas_cost,
        x := 0, y := 0, x_interest := none, y_interest := none, costs := 0 }
    let pf₁ ← pf.append (.bi bi_cur)
    let spf ← StrategyCatchThePrice.create_pos sq eps s (1 / record.price) 1
      record.price record.timestamp pf₁
    Except.ok (some "init", spf.1, spf.2)
  else do
    let pos ← pf.getPosition (posNumName s.pos_num)
    let uni_pos ← (match pos with
      | .uni u => Except.ok u
      | .bi _ => Except.error EngineError.typeError)
    let uni₁ := uni_pos.chargeFees sq record.price_before record.price
    let pf₁ := pf.updatePosition (posNumName s.pos_num) (.uni uni₁)
    match s.last_mint_price with
    | none => Except.error EngineError.typeError
    | some lmp =>
      if |lmp - record.price| < s.width then
        Except.ok (none, { s with last_timestamp_in_interval := some record.timestamp }, pf₁)
      else
        match s.last_timestamp_in_interval with
        | none => Except.error EngineError.typeError
        | some lts =>
          if s.seconds_to_hold < record.timestamp - lts then do
            let pos₂ ← pf₁.getPosition (posNumName s.pos_num)
            let uni₂ ← (match pos₂ with
              | .uni u => Except.ok u
              | .bi _ => Except.error EngineError.typeError)
            let wd ← uni₂.withdraw sq record.price
            let pf₂ ← pf₁.remove (posNumName s.pos_num)
            let spf ← StrategyCatchThePrice.create_pos sq eps s wd.1.1 wd.1.2
              record.price record.timestamp pf₂
            Except.ok (some "rebalance", spf.1, spf.2)
          else Except.ok (none, s, pf₁)

/-! ## Theorems -/

/-! ### Basic facts about the aligner -/

lemma one_div_sub_one_div_pos {u v : ℚ} (hu : 0 < u) (huv : u < v) :
    0 < 1 / u - 1 / v := by
  have := one_div_lt_one_div_of_lt hu huv
  linarith

lemma liqToX_zero (sq : ℚ → ℚ) (p a b : ℚ) : liqToX sq 0 p a b = 0 := by
  unfold liqToX
  split <;> simp

lemma liqToY_zero (sq : ℚ → ℚ) (p a b : ℚ) : liqToY sq 0 p a b = 0 := by
  unfold liqToY
  split <;> simp

lemma liqToX_add (sq : ℚ → ℚ) (l₁ l₂ p a b : ℚ) :
    liqToX sq (l₁ + l₂) p a b = liqToX sq l₁ p a b + liqToX sq l₂ p a b := by
  unfold liqToX
  split <;> ring

lemma liqToY_add (sq : ℚ → ℚ) (l₁ l₂ p a b : ℚ) :
    liqToY sq (l₁ + l₂) p a b = liqToY sq l₁ p a b + liqToY sq l₂ p a b := by
  unfold liqToY
  split <;> ring

/-- An optimal pair is reproduced exactly by converting it to liquidity and
back to amounts. -/
lemma amountsForLiquidity_liquidityForAmounts (sq : ℚ → ℚ) (x y p a b : ℚ)
    (hab : a < b) (hsa : 0 < sq a) (hsab : sq a < sq b) (hsp : 0 < sq p)
    (hmono₁ : a < p → sq a < sq p) (hmono₂ : p < b → sq p < sq b)
    (hopt : isOptimalPair sq x y p a b = true) :
    amountsForLiquidity sq (liquidityForAmounts sq x y p a b) p a b = (x, y) := by
  rcases le_or_lt p a with h1 | h1
  · have hnb : ¬ b ≤ p := not_le.mpr (h1.trans_lt hab)
    have hy : y = 0 := by
      rw [isOptimalPair, if_pos h1, decide_eq_true_eq] at hopt
      exact hopt
    have hD : (0 : ℚ) < 1 / sq a - 1 / sq b := one_div_sub_one_div_pos hsa hsab
    simp only [amountsForLiquidity, liquidityForAmounts, liqToX, liqToY, xToLiq,
      if_pos h1, if_neg hnb, max_eq_right h1]
    rw [div_mul_cancel₀ x hD.ne', hy]
  · rcases le_or_lt b p with h2 | h2
    · have hna : ¬ p ≤ a := not_le.mpr (hab.trans_le h2)
      have hx : x = 0 := by
        rw [isOptimalPair, if_neg hna, if_pos h2, decide_eq_true_eq] at hopt
        exact hopt
      have hD : (0 : ℚ) < sq b - sq a := sub_pos.mpr hsab
      simp only [amountsForLiquidity, liquidityForAmounts, liqToX, liqToY, yToLiq,
        if_neg hna, if_pos h2, min_eq_right h2]
      rw [div_mul_cancel₀ y hD.ne', hx]
    · have hna : ¬ p ≤ a := not_le.mpr h1
      have hnb : ¬ b ≤ p := not_le.mpr h2
      have hsap : sq a < sq p := hmono₁ h1
      have hspb : sq p < sq b := hmono₂ h2
      have hA : (0 : ℚ) < 1 / sq p - 1 / sq b := one_div_sub_one_div_pos hsp hspb
      have hB : (0 : ℚ) < sq p - sq a := sub_pos.mpr hsap
      have hxy : x * (sq p - sq a) = y * (1 / sq p - 1 / sq b) := by
        rw [isOptimalPair, if_neg hna, if_neg hnb, decide_eq_true_eq] at hopt
        exact hopt
      have heq : x / (1 / sq p - 1 / sq b) = y / (sq p - sq a) := by
        rw [div_eq_div_iff hA.ne' hB.ne']
        exact hxy
      simp only [amountsForLiquidity, liquidityForAmounts, liqToX, liqToY, xToLiq,
        yToLiq, if_neg hna, if_neg hnb, max_eq_left h1.le, min_eq_left h2.le]
      rw [heq, min_self, ← heq, div_mul_cancel₀ x hA.ne', heq, div_mul_cancel₀ y hB.ne']

/-! ### C1: round-trip of the liquidity math -/

/-- Claim C1: for every liquidity `L > 0`, prices `0 < a < b` and price
`p ∈ [a, b]`, converting `L` to token amounts with `amountsForLiquidity` and
back with `liquidityForAmounts` at the same `p, a, b` yields `L` again.  In
the exact rational model the round trip is an identity, hence in particular
within any epsilon; `sq` is assumed positive and strictly monotone at the
three prices involved, as a square root is. -/
theorem liquidityForAmounts_roundtrip (sq : ℚ → ℚ) (l p a b : ℚ)
    (ha : 0 < a) (hab : a < b) (hl : 0 < l)
    (hsa : 0 < sq a) (hsab : sq a < sq b) (hsp : 0 < sq p)
    (hmono₁ : a < p → sq a < sq p) (hmono₂ : p < b → sq p < sq b)
    (hap : a ≤ p) (hpb : p ≤ b) :
    liquidityForAmounts sq (amountsForLiquidity sq l p a b).1
      (amountsForLiquidity sq l p a b).2 p a b = l := by
  rcases le_or_lt p a with h1 | h1
  · have hnb : ¬ b ≤ p := not_le.mpr (h1.trans_lt hab)
    have hD : (0 : ℚ) < 1 / sq a - 1 / sq b := one_div_sub_one_div_pos hsa hsab
    simp only [liquidityForAmounts, amountsForLiquidity, liqToX, xToLiq,
      if_pos h1, if_neg hnb, max_eq_right h1]
    exact mul_div_cancel_right₀ l hD.ne'
  · rcases le_or_lt b p with h2 | h2
    · have hna : ¬ p ≤ a := not_le.mpr (hab.trans_le h2)
      have hD : (0 : ℚ) < sq b - sq a := sub_pos.mpr hsab
      simp only [liquidityForAmounts, amountsForLiquidity, liqToY, yToLiq,
        if_neg hna, if_pos h2, min_eq_right h2]
      exact mul_div_cancel_right₀ l hD.ne'
    · have hna : ¬ p ≤ a := not_le.mpr h1
      have hnb : ¬ b ≤ p := not_le.mpr h2
      have hA : (0 : ℚ) < 1 / sq p - 1 / sq b :=
        one_div_sub_one_div_pos hsp (hmono₂ h2)
      have hB : (0 : ℚ) < sq p - sq a := sub_pos.mpr (hmono₁ h1)
      simp only [liquidityForAmounts, amountsForLiquidity, liqToX, liqToY,
        xToLiq, yToLiq, if_neg hna, if_neg hnb, max_eq_left h1.le, min_eq_left h2.le]
      rw [mul_div_cancel_right₀ l hA.ne', mul_div_cancel_right₀ l hB.ne', min_self]

/-! ### C3: shape of the optimal-swap output -/

/-- Counterexample to C3 as stated: at the already-optimal in-range input
`x = 1`, `y = 4`, `p = 2` on `[1, 4]` (with `sq = id`, which is positive
and strictly monotone at these points), `swapToOptimal` returns `(0, 0)`, so
it is false that exactly one of `dx, dy` is nonzero — the claim's own
"returns (0,0) when the input pair is already optimal" case contradicts its
"exactly one is nonzero" guarantee. -/
theorem swapToOptimal_exactly_one_counterexample :
    swapToOptimal id 1 4 2 1 4 0 = (0, 0) ∧
    ¬ (((swapToOptimal id 1 4 2 1 4 0).1 ≠ 0 ∧
          (swapToOptimal id 1 4 2 1 4 0).2 = 0) ∨
       ((swapToOptimal id 1 4 2 1 4 0).1 = 0 ∧
          (swapToOptimal id 1 4 2 1 4 0).2 ≠ 0)) := by
  norm_num [swapToOptimal]

/-- Claim C3, amended: at most one of `dx, dy` is nonzero (instead of exactly
one); `swapToOptimal` returns `(0, 0)` when the price is fully outside the
interval, and also when the input pair is already optimal. -/
theorem swapToOptimal_at_most_one_nonzero (sq : ℚ → ℚ) (x y p a b fee : ℚ)
    (hx : 0 ≤ x) (hy : 0 ≤ y) (hp : 0 < p)
    (hsa : 0 < sq a) (hsab : sq a < sq b) (hsp : 0 < sq p)
    (hmono₂ : p < b → sq p < sq b) :
    ((swapToOptimal sq x y p a b fee).1 = 0 ∨ (swapToOptimal sq x y p a b fee).2 = 0) ∧
    ((p ≤ a ∨ b ≤ p) → swapToOptimal sq x y p a b fee = (0, 0)) ∧
    (isOptimalPair sq x y p a b = true → a < p → p < b →
      swapToOptimal sq x y p a b fee = (0, 0)) := by
  refine ⟨?_, ?_, ?_⟩
  · unfold swapToOptimal
    split_ifs <;> simp
  · intro h0
    rw [swapToOptimal, if_pos h0]
  · intro hopt h1 h2
    have hna : ¬ p ≤ a := not_le.mpr h1
    have hnb : ¬ b ≤ p := not_le.mpr h2
    have h0 : ¬ (p ≤ a ∨ b ≤ p) := by
      rw [not_or]
      exact ⟨hna, hnb⟩
    have hA : (0 : ℚ) < 1 / sq p - 1 / sq b :=
      one_div_sub_one_div_pos hsp (hmono₂ h2)
    have hxy : x * (sq p - sq a) = y * (1 / sq p - 1 / sq b) := by
      rw [isOptimalPair, if_neg hna, if_neg hnb, decide_eq_true_eq] at hopt
      exact hopt
    have hyr : y = x * ((sq p - sq a) / (1 / sq p - 1 / sq b)) := by
      rw [← mul_div_assoc, eq_div_iff hA.ne']
      linarith [hxy]
    rw [swapToOptimal, if_neg h0, if_pos hyr]

/-- Witness for the amended C3 at `sq = id`, `x = 1`, `y = 4`, `p = 2` on
`[1, 4]`: both the at-most-one-nonzero shape and the optimal-pair `(0, 0)`
case hold at this input. -/
theorem swapToOptimal_at_most_one_nonzero_witness :
    ((swapToOptimal id 1 4 2 1 4 0).1 = 0 ∨
      (swapToOptimal id 1 4 2 1 4 0).2 = 0) ∧
    swapToOptimal id 1 4 2 1 4 0 = (0, 0) :=
  ⟨(swapToOptimal_at_most_one_nonzero id 1 4 2 1 4 0 (by decide) (by decide)
      (by decide) (by decide) (by decide) (by decide) (fun _ => by decide)).1,
   (swapToOptimal_at_most_one_nonzero id 1 4 2 1 4 0 (by decide) (by decide)
      (by decide) (by decide) (by decide) (by decide) (fun _ => by decide)).2.2
     (by norm_num [isOptimalPair]) (by decide) (by decide)⟩

/-! ### C4: portfolio name-space invariants -/

/-- Claim C4: appending a position whose name equals an existing position's
name fails with `duplicateName`; removing or looking up an absent name fails
with `notFound`; and a successful append followed by a successful remove of
the same name leaves the position count unchanged. -/
theorem portfolio_name_invariants (pf : Portfolio) (pos : Position) (n : String) :
    (pos.name ∈ pf.names → pf.append pos = .error .duplicateName) ∧
    (n ∉ pf.names →
      pf.remove n = .error .notFound ∧ pf.getPosition n = .error .notFound) ∧
    (∀ pf' pf'', pf.append pos = .ok pf' → pf'.remove pos.name = .ok pf'' →
      pf''.positions.length = pf.positions.length) := by
  refine ⟨?_, ?_, ?_⟩
  · intro h
    rw [Portfolio.append, if_pos h]
  · intro h
    have habs : ∀ q ∈ pf.positions, ¬ (q.name = n) := by
      intro q hq he
      exact h (he ▸ List.mem_map_of_mem Position.name hq)
    constructor
    · rw [Portfolio.remove, if_neg h]
    · rw [Portfolio.getPosition]
      have : pf.positions.find? (fun q => q.name = n) = none := by
        rw [List.find?_eq_none]
        intro q hq
        simp only [decide_eq_true_eq]
        exact habs q hq
      rw [this]
  · intro pf' pf'' h1 h2
    by_cases hdup : pos.name ∈ pf.names
    · rw [Portfolio.append, if_pos hdup] at h1
      exact absurd h1 (by simp)
    · rw [Portfolio.append, if_neg hdup] at h1
      injection h1 with h1
      subst h1
      have hmem : pos.name ∈ (Portfolio.mk (pf.positions ++ [pos])).names := by
        simp [Portfolio.names]
      rw [Portfolio.remove, if_pos hmem] at h2
      injection h2 with h2
      subst h2
      simp only [List.filter_append]
      have hkeep : pf.positions.filter (fun q => q.name ≠ pos.name) = pf.positions := by
        rw [List.filter_eq_self]
        intro q hq
        simp only [ne_eq, decide_not, Bool.not_eq_eq_eq_not, Bool.not_true,
          decide_eq_false_iff_not]
        intro he
        exact hdup (he ▸ List.mem_map_of_mem Position.name hq)
      have hdrop : [pos].filter (fun q => q.name ≠ pos.name) = [] := by
        simp
      rw [hkeep, hdrop]
      simp

/-- Witness for C4 on a one-position portfolio named `v`. -/
theorem portfolio_name_invariants_witness :
    Portfolio.append ⟨[Position.bi ⟨"v", 0, 0, 1, 2, none, none, 0⟩]⟩
        (Position.bi ⟨"v", 0, 0, 0, 0, none, none, 0⟩) = .error .duplicateName ∧
    Portfolio.remove ⟨[Position.bi ⟨"v", 0, 0, 1, 2, none, none, 0⟩]⟩ "w"
        = .error .notFound ∧
    Portfolio.getPosition ⟨[Position.bi ⟨"v", 0, 0, 1, 2, none, none, 0⟩]⟩ "w"
        = .error .notFound ∧
    (Portfolio.mk [Position.bi ⟨"v", 0, 0, 1, 2, none, none, 0⟩]).positions.length
        = (Portfolio.mk [Position.bi ⟨"v", 0, 0, 1, 2, none, none, 0⟩]).positions.length :=
  ⟨(portfolio_name_invariants ⟨[Position.bi ⟨"v", 0, 0, 1, 2, none, none, 0⟩]⟩
      (Position.bi ⟨"v", 0, 0, 0, 0, none, none, 0⟩) "w").1 (by decide),
   ((portfolio_name_invariants ⟨[Position.bi ⟨"v", 0, 0, 1, 2, none, none, 0⟩]⟩
      (Position.bi ⟨"w", 0, 0, 0, 0, none, none, 0⟩) "w").2.1 (by decide)).1,
   ((portfolio_name_invariants ⟨[Position.bi ⟨"v", 0, 0, 1, 2, none, none, 0⟩]⟩
      (Position.bi ⟨"w", 0, 0, 0, 0, none, none, 0⟩) "w").2.1 (by decide)).2,
   (portfolio_name_invariants ⟨[Position.bi ⟨"v", 0, 0, 1, 2, none, none, 0⟩]⟩
      (Position.bi ⟨"w", 0, 0, 0, 0, none, none, 0⟩) "w").2.2
      ⟨[Position.bi ⟨"v", 0, 0, 1, 2, none, none, 0⟩,
        Position.bi ⟨"w", 0, 0, 0, 0, none, none, 0⟩]⟩
      ⟨[Position.bi ⟨"v", 0, 0, 1, 2, none, none, 0⟩]⟩ (by rfl) (by rfl)⟩

/-! ### C6: withdrawal tolerance of the balance position -/

/-- Claim C6: for a balance position holding `(x, y)`, `withdraw dx dy`
fails with `insufficientFunds` exactly when `dx` exceeds `x` or `dy` exceeds
`y` beyond the tolerance `eps`; an excess within the tolerance is clamped to
the holding and the withdrawal succeeds. -/
theorem withdraw_insufficient_iff (pos : BiCurrencyPosition) (dx dy eps : ℚ)
    (heps : 0 ≤ eps) :
    (pos.withdraw dx dy eps = .error .insufficientFunds ↔
      pos.x + eps < dx ∨ pos.y + eps < dy) ∧
    (pos.x < dx → dx ≤ pos.x + eps → dy ≤ pos.y →
      pos.withdraw dx dy eps =
        .ok ((pos.x, dy), { pos with x := 0, y := pos.y - dy,
                                     costs := pos.costs + pos.gas_cost })) := by
  constructor
  · by_cases h : pos.x + eps < dx ∨ pos.y + eps < dy
    · rw [BiCurrencyPosition.withdraw, if_pos h]
      simp [h]
    · rw [BiCurrencyPosition.withdraw, if_neg h]
      simp [h]
  · intro h1 h2 h3
    have hno : ¬ (pos.x + eps < dx ∨ pos.y + eps < dy) := by
      rw [not_or]
      constructor <;> [exact not_lt.mpr h2; exact not_lt.mpr (h3.trans (by linarith))]
    rw [BiCurrencyPosition.withdraw, if_neg hno]
    have hdx : min dx pos.x = pos.x := min_eq_right h1.le
    have hdy : min dy pos.y = dy := min_eq_left h3
    rw [hdx, hdy]
    simp only [sub_self]

/-- Witness for C6 at a position holding `(1, 1)` with tolerance `1`: the
request `(2, 1)` exceeds `x` by no more than the tolerance, is clamped to the
holding and succeeds, while `(3, 1)` is rejected exactly because it exceeds
`x + eps`. -/
theorem withdraw_insufficient_iff_witness :
    (BiCurrencyPosition.withdraw ⟨"v", 0, 0, 1, 1, none, none, 0⟩ 3 1 1
        = .error .insufficientFunds ↔
      ((1 : ℚ) + 1 < 3 ∨ (1 : ℚ) + 1 < 1)) ∧
    BiCurrencyPosition.withdraw ⟨"v", 0, 0, 1, 1, none, none, 0⟩ 2 1 1
        = .ok ((1, 1),
            { (⟨"v", 0, 0, 1, 1, none, none, 0⟩ : BiCurrencyPosition) with
                x := 0, y := 1 - 1, costs := 0 + 0 }) :=
  ⟨(withdraw_insufficient_iff ⟨"v", 0, 0, 1, 1, none, none, 0⟩ 3 1 1
      (by norm_num)).1,
   (withdraw_insufficient_iff ⟨"v", 0, 0, 1, 1, none, none, 0⟩ 2 1 1
      (by norm_num)).2 (by norm_num) (by norm_num) (by norm_num)⟩

/-! ### Facts about fee charging -/

lemma chargeFees_below_range (sq : ℚ → ℚ) (pos : UniV3Position) (p0 p1 : ℚ)
    (hab : pos.lower_price ≤ pos.upper_price)
    (h : max p0 p1 < pos.lower_price) :
    pos.chargeFees sq p0 p1 = pos := by
  have h0 : p0 < pos.lower_price := lt_of_le_of_lt (le_max_left _ _) h
  have h1 : p1 < pos.lower_price := lt_of_le_of_lt (le_max_right _ _) h
  have hnb0 : ¬ pos.upper_price ≤ p0 := not_le.mpr (h0.trans_le hab)
  have hnb1 : ¬ pos.upper_price ≤ p1 := not_le.mpr (h1.trans_le hab)
  rw [UniV3Position.chargeFees, liqToX, liqToY, liqToX, liqToY,
    if_neg hnb0, if_neg hnb1, if_pos h0.le, if_pos h1.le,
    max_eq_right h0.le, max_eq_right h1.le]
  simp

lemma chargeFeesSeq_below_range (sq : ℚ → ℚ) (evs : List (ℚ × ℚ))
    (pos : UniV3Position) (hab : pos.lower_price ≤ pos.upper_price)
    (h : ∀ e ∈ evs, max e.1 e.2 < pos.lower_price) :
    chargeFeesSeq sq evs pos = pos := by
  induction evs with
  | nil => rfl
  | cons e es ih =>
      have hstep : pos.chargeFees sq e.1 e.2 = pos :=
        chargeFees_below_range sq pos e.1 e.2 hab (h e (by simp))
      show chargeFeesSeq sq es (pos.chargeFees sq e.1 e.2) = pos
      rw [hstep]
      exact ih (fun e' he' => h e' (List.mem_cons_of_mem e he'))

lemma chargeFees_feeX_le (sq : ℚ → ℚ) (pos : UniV3Position) (p0 p1 : ℚ) :
    pos.feeX ≤ (pos.chargeFees sq p0 p1).feeX := by
  simp only [UniV3Position.chargeFees]
  exact le_add_of_nonneg_right (le_max_left 0 _)

lemma chargeFees_feeY_le (sq : ℚ → ℚ) (pos : UniV3Position) (p0 p1 : ℚ) :
    pos.feeY ≤ (pos.chargeFees sq p0 p1).feeY := by
  simp only [UniV3Position.chargeFees]
  exact le_add_of_nonneg_right (le_max_left 0 _)

lemma chargeFeesSeq_feeX_le (sq : ℚ → ℚ) (evs : List (ℚ × ℚ)) (pos : UniV3Position) :
    pos.feeX ≤ (chargeFeesSeq sq evs pos).feeX := by
  induction evs generalizing pos with
  | nil => exact le_refl _
  | cons e es ih =>
      exact le_trans (chargeFees_feeX_le sq pos e.1 e.2) (ih _)

lemma chargeFeesSeq_feeY_le (sq : ℚ → ℚ) (evs : List (ℚ × ℚ)) (pos : UniV3Position) :
    pos.feeY ≤ (chargeFeesSeq sq evs pos).feeY := by
  induction evs generalizing pos with
  | nil => exact le_refl _
  | cons e es ih =>
      exact le_trans (chargeFees_feeY_le sq pos e.1 e.2) (ih _)

lemma chargeFeesSeq_l (sq : ℚ → ℚ) (evs : List (ℚ × ℚ)) (pos : UniV3Position) :
    (chargeFeesSeq sq evs pos).l = pos.l := by
  induction evs generalizing pos with
  | nil => rfl
  | cons e es ih => exact ih _

/-! ### C2: deposit/withdraw value conservation -/

/-- Claim C2: a deposit immediately followed by a withdraw at the same price
`p`, with nothing happening in between (zero elapsed time, zero fees
accrued), returns the portfolio to exactly its pre-deposit total value minus
two fixed transaction costs, one per mutating action.  Both position variants
are covered; each position is viewed as a singleton portfolio
(`Portfolio.totalValueY` is the sum of position values minus charged costs,
so the statement extends additively to any enclosing portfolio), with the
tokens being deposited and returned valued at `p` alongside it. -/
theorem deposit_withdraw_value_conservation (sq : ℚ → ℚ)
    (bpos : BiCurrencyPosition) (upos : UniV3Position) (x y p eps : ℚ)
    (hbx : 0 ≤ bpos.x) (hby : 0 ≤ bpos.y) (heps : 0 ≤ eps)
    (hab : upos.lower_price < upos.upper_price)
    (hsa : 0 < sq upos.lower_price)
    (hsab : sq upos.lower_price < sq upos.upper_price)
    (hsp : 0 < sq p)
    (hmono₁ : upos.lower_price < p → sq upos.lower_price < sq p)
    (hmono₂ : p < upos.upper_price → sq p < sq upos.upper_price) :
    (∃ out bpos', (bpos.deposit x y).withdraw x y eps = .ok (out, bpos') ∧
        out = (x, y) ∧
        out.1 * p + out.2 + Portfolio.totalValueY sq ⟨[.bi bpos']⟩ p
          = (x * p + y) + Portfolio.totalValueY sq ⟨[.bi bpos]⟩ p
              - 2 * bpos.gas_cost) ∧
    (∀ upos₁, upos.deposit sq x y p = .ok upos₁ →
      ∃ out upos₂, upos₁.withdraw sq p = .ok (out, upos₂) ∧
        out.1 * p + out.2 + Portfolio.totalValueY sq ⟨[.uni upos₂]⟩ p
          = (x * p + y) + Portfolio.totalValueY sq ⟨[.uni upos]⟩ p
              - 2 * upos.gas_cost) := by
  constructor
  · have e1 : (bpos.deposit x y).x = bpos.x + x := rfl
    have e2 : (bpos.deposit x y).y = bpos.y + y := rfl
    have hcond : ¬ ((bpos.deposit x y).x + eps < x ∨ (bpos.deposit x y).y + eps < y) := by
      rw [e1, e2]
      push_neg
      constructor <;> linarith
    have hx1 : min x ((bpos.deposit x y).x) = x :=
      min_eq_left (le_add_of_nonneg_left hbx)
    have hy1 : min y ((bpos.deposit x y).y) = y :=
      min_eq_left (le_add_of_nonneg_left hby)
    refine ⟨(x, y),
      { bpos.deposit x y with
          x := (bpos.deposit x y).x - x,
          y := (bpos.deposit x y).y - y,
          costs := (bpos.deposit x y).costs + (bpos.deposit x y).gas_cost },
      ?_, rfl, ?_⟩
    · rw [BiCurrencyPosition.withdraw, if_neg hcond, hx1, hy1]
    · simp only [Portfolio.totalValueY, List.map_cons, List.map_nil, List.sum_cons,
        List.sum_nil, Position.valueY, Position.costs, BiCurrencyPosition.valueY,
        BiCurrencyPosition.deposit]
      ring
  · intro upos₁ hdep
    by_cases hp : p ≤ 0
    · rw [UniV3Position.deposit, if_pos hp] at hdep
      exact absurd hdep (by simp)
    by_cases hopt : isOptimalPair sq x y p upos.lower_price upos.upper_price = true
    · rw [UniV3Position.deposit, if_neg hp, if_pos hopt] at hdep
      injection hdep with hdep
      subst hdep
      have hr := amountsForLiquidity_liquidityForAmounts sq x y p upos.lower_price
        upos.upper_price hab hsa hsab hsp hmono₁ hmono₂ hopt
      have hrx : liqToX sq
          (liquidityForAmounts sq x y p upos.lower_price upos.upper_price) p
          upos.lower_price upos.upper_price = x := congrArg Prod.fst hr
      have hry : liqToY sq
          (liquidityForAmounts sq x y p upos.lower_price upos.upper_price) p
          upos.lower_price upos.upper_price = y := congrArg Prod.snd hr
      refine ⟨(liqToX sq (upos.l + liquidityForAmounts sq x y p upos.lower_price
                  upos.upper_price) p upos.lower_price upos.upper_price + upos.feeX,
               liqToY sq (upos.l + liquidityForAmounts sq x y p upos.lower_price
                  upos.upper_price) p upos.lower_price upos.upper_price + upos.feeY),
              { upos with l := 0, feeX := 0, feeY := 0,
                          costs := upos.costs + upos.gas_cost + upos.gas_cost },
              ?_, ?_⟩
      · rw [UniV3Position.withdraw, if_neg hp]
        rfl
      · simp only [Portfolio.totalValueY, List.map_cons, List.map_nil, List.sum_cons,
          List.sum_nil, Position.valueY, Position.costs, UniV3Position.valueY,
          liqToX_add, liqToY_add, liqToX_zero, liqToY_zero, hrx, hry]
        ring
    · rw [UniV3Position.deposit, if_neg hp, if_neg hopt] at hdep
      exact absurd hdep (by simp)

/-- Witness for C2 at `sq = id`, a balance position holding `(1, 2)` and an
EMPTY interval position on `[1, 4]` with unit gas cost, depositing the
optimal pair `(1, 4)` at `p = 2` and withdrawing at the same price. -/
theorem deposit_withdraw_value_conservation_witness :
    (∃ out bpos',
      BiCurrencyPosition.withdraw
          (BiCurrencyPosition.deposit ⟨"v", 0, 1, 1, 2, none, none, 0⟩ 1 4) 1 4 0
        = .ok (out, bpos') ∧
      out = (1, 4) ∧
      out.1 * 2 + out.2 + Portfolio.totalValueY id ⟨[.bi bpos']⟩ 2
        = (1 * 2 + 4) + Portfolio.totalValueY id
            ⟨[.bi ⟨"v", 0, 1, 1, 2, none, none, 0⟩]⟩ 2 - 2 * 1) ∧
    (∀ upos₁, (mkUniV3Position "u" 1 4 0 1).deposit id 1 4 2 = .ok upos₁ →
      ∃ out upos₂, upos₁.withdraw id 2 = .ok (out, upos₂) ∧
        out.1 * 2 + out.2 + Portfolio.totalValueY id ⟨[.uni upos₂]⟩ 2
          = (1 * 2 + 4) + Portfolio.totalValueY id
              ⟨[.uni (mkUniV3Position "u" 1 4 0 1)]⟩ 2 - 2 * 1) :=
  deposit_withdraw_value_conservation id ⟨"v", 0, 1, 1, 2, none, none, 0⟩
    (mkUniV3Position "u" 1 4 0 1) 1 4 2 0 (by norm_num) (by norm_num) (by norm_num)
    (by norm_num [mkUniV3Position]) (by norm_num [mkUniV3Position])
    (by norm_num [mkUniV3Position]) (by norm_num)
    (fun _ => by norm_num [mkUniV3Position]) (fun _ => by norm_num [mkUniV3Position])

/-! ### C5: out-of-range deposit is single-sided and earns no fees -/

/-- Claim C5: depositing into an interval position on `[15, 16]` at price
`10` (at or below the lower bound) yields a single-sided holding with
`y = 0` and `x > 0`, and any sequence of `chargeFees` calls whose traded
price ranges stay below `15` leaves `feeX = 0` and `feeY = 0`. -/
theorem deposit_below_range_single_sided (sq : ℚ → ℚ) (x fee gas : ℚ)
    (hx : 0 < x) (hsa : 0 < sq 15) (hsab : sq 15 < sq 16)
    (evs : List (ℚ × ℚ)) (hevs : ∀ e ∈ evs, max e.1 e.2 < 15) :
    ∃ pos', (mkUniV3Position "passive" 15 16 fee gas).deposit sq x 0 10 = .ok pos' ∧
      0 < (amountsForLiquidity sq pos'.l 10 15 16).1 ∧
      (amountsForLiquidity sq pos'.l 10 15 16).2 = 0 ∧
      (chargeFeesSeq sq evs pos').feeX = 0 ∧
      (chargeFeesSeq sq evs pos').feeY = 0 := by
  have hopt : isOptimalPair sq x 0 10 15 16 = true := by
    rw [isOptimalPair, if_pos (by norm_num : (10 : ℚ) ≤ 15)]
    simp
  have hD : (0 : ℚ) < 1 / sq 15 - 1 / sq 16 := one_div_sub_one_div_pos hsa hsab
  have hL : liquidityForAmounts sq x 0 10 15 16 = x / (1 / sq 15 - 1 / sq 16) := by
    rw [liquidityForAmounts, if_pos (by norm_num : (10 : ℚ) ≤ 15), xToLiq,
      if_neg (by norm_num : ¬ (16 : ℚ) ≤ 10), max_eq_right (by norm_num : (10 : ℚ) ≤ 15)]
  refine ⟨⟨"passive", 15, 16, fee, gas, 0 + liquidityForAmounts sq x 0 10 15 16,
          0, 0, 0, 0, 0 + gas⟩, ?_, ?_, ?_, ?_, ?_⟩
  · rw [UniV3Position.deposit, if_neg (by norm_num : ¬ (10 : ℚ) ≤ 0)]
    simp only [mkUniV3Position]
    rw [if_pos hopt]
  · show 0 < liqToX sq (0 + liquidityForAmounts sq x 0 10 15 16) 10 15 16
    rw [liqToX, if_neg (by norm_num : ¬ (16 : ℚ) ≤ 10),
      max_eq_right (by norm_num : (10 : ℚ) ≤ 15), hL, zero_add,
      div_mul_cancel₀ x hD.ne']
    exact hx
  · show liqToY sq (0 + liquidityForAmounts sq x 0 10 15 16) 10 15 16 = 0
    rw [liqToY, if_pos (by norm_num : (10 : ℚ) ≤ 15)]
  · rw [chargeFeesSeq_below_range sq evs _ (by norm_num) hevs]
  · rw [chargeFeesSeq_below_range sq evs _ (by norm_num) hevs]

/-- Witness for C5 at `sq = id`, `x = 1`, zero fee tier and gas cost, with
one swap event whose traded range is `[12, 14]`, below the interval. -/
theorem deposit_below_range_single_sided_witness :
    ∃ pos', (mkUniV3Position "passive" 15 16 0 0).deposit id 1 0 10 = .ok pos' ∧
      0 < (amountsForLiquidity id pos'.l 10 15 16).1 ∧
      (amountsForLiquidity id pos'.l 10 15 16).2 = 0 ∧
      (chargeFeesSeq id [(12, 14)] pos').feeX = 0 ∧
      (chargeFeesSeq id [(12, 14)] pos').feeY = 0 :=
  deposit_below_range_single_sided id 1 0 0 (by norm_num) (by norm_num) (by norm_num)
    [(12, 14)]
    (by
      intro e he
      rw [List.mem_singleton] at he
      subst he
      norm_num)

/-! ### C7: fee monotonicity and `collectFees` -/

/-- Claim C7: for an ACTIVE interval position and any sequence of swap events
processed through `chargeFees`, the accumulated fees are non-decreasing;
`collectFees` zeroes `feeX`/`feeY`, returns the collected amounts, increments
the cumulative-collected counters without ever decreasing them, and leaves
the liquidity `l` unchanged. -/
theorem fee_monotonicity_and_collect (sq : ℚ → ℚ) (pos : UniV3Position)
    (evs : List (ℚ × ℚ)) (hactive : 0 < pos.l)
    (hfx : 0 ≤ pos.feeX) (hfy : 0 ≤ pos.feeY) :
    pos.feeX ≤ (chargeFeesSeq sq evs pos).feeX ∧
    pos.feeY ≤ (chargeFeesSeq sq evs pos).feeY ∧
    ((chargeFeesSeq sq evs pos).collectFees).2.feeX = 0 ∧
    ((chargeFeesSeq sq evs pos).collectFees).2.feeY = 0 ∧
    ((chargeFeesSeq sq evs pos).collectFees).1 =
      ((chargeFeesSeq sq evs pos).feeX, (chargeFeesSeq sq evs pos).feeY) ∧
    (chargeFeesSeq sq evs pos).cum_fees_x ≤
      ((chargeFeesSeq sq evs pos).collectFees).2.cum_fees_x ∧
    (chargeFeesSeq sq evs pos).cum_fees_y ≤
      ((chargeFeesSeq sq evs pos).collectFees).2.cum_fees_y ∧
    ((chargeFeesSeq sq evs pos).collectFees).2.l = (chargeFeesSeq sq evs pos).l ∧
    (chargeFeesSeq sq evs pos).l = pos.l := by
  refine ⟨chargeFeesSeq_feeX_le sq evs pos, chargeFeesSeq_feeY_le sq evs pos,
    rfl, rfl, rfl, ?_, ?_, rfl, chargeFeesSeq_l sq evs pos⟩
  · exact le_add_of_nonneg_right (hfx.trans (chargeFeesSeq_feeX_le sq evs pos))
  · exact le_add_of_nonneg_right (hfy.trans (chargeFeesSeq_feeY_le sq evs pos))

/-- Witness for C7 at `sq = id`, an ACTIVE position on `[1, 4]` with unit
liquidity and zero starting fees, and one in-range swap event `(2, 3)`. -/
theorem fee_monotonicity_and_collect_witness :
    (⟨"u", 1, 4, 1, 0, 1, 0, 0, 0, 0, 0⟩ : UniV3Position).feeX ≤
      (chargeFeesSeq id [(2, 3)] ⟨"u", 1, 4, 1, 0, 1, 0, 0, 0, 0, 0⟩).feeX ∧
    (⟨"u", 1, 4, 1, 0, 1, 0, 0, 0, 0, 0⟩ : UniV3Position).feeY ≤
      (chargeFeesSeq id [(2, 3)] ⟨"u", 1, 4, 1, 0, 1, 0, 0, 0, 0, 0⟩).feeY ∧
    ((chargeFeesSeq id [(2, 3)] ⟨"u", 1, 4, 1, 0, 1, 0, 0, 0, 0, 0⟩).collectFees).2.feeX = 0 ∧
    ((chargeFeesSeq id [(2, 3)] ⟨"u", 1, 4, 1, 0, 1, 0, 0, 0, 0, 0⟩).collectFees).2.feeY = 0 ∧
    ((chargeFeesSeq id [(2, 3)] ⟨"u", 1, 4, 1, 0, 1, 0, 0, 0, 0, 0⟩).collectFees).1 =
      ((chargeFeesSeq id [(2, 3)] ⟨"u", 1, 4, 1, 0, 1, 0, 0, 0, 0, 0⟩).feeX,
       (chargeFeesSeq id [(2, 3)] ⟨"u", 1, 4, 1, 0, 1, 0, 0, 0, 0, 0⟩).feeY) ∧
    (chargeFeesSeq id [(2, 3)] ⟨"u", 1, 4, 1, 0, 1, 0, 0, 0, 0, 0⟩).cum_fees_x ≤
      ((chargeFeesSeq id [(2, 3)] ⟨"u", 1, 4, 1, 0, 1, 0, 0, 0, 0, 0⟩).collectFees).2.cum_fees_x ∧
    (chargeFeesSeq id [(2, 3)] ⟨"u", 1, 4, 1, 0, 1, 0, 0, 0, 0, 0⟩).cum_fees_y ≤
      ((chargeFeesSeq id [(2, 3)] ⟨"u", 1, 4, 1, 0, 1, 0, 0, 0, 0, 0⟩).collectFees).2.cum_fees_y ∧
    ((chargeFeesSeq id [(2, 3)] ⟨"u", 1, 4, 1, 0, 1, 0, 0, 0, 0, 0⟩).collectFees).2.l =
      (chargeFeesSeq id [(2, 3)] ⟨"u", 1, 4, 1, 0, 1, 0, 0, 0, 0, 0⟩).l ∧
    (chargeFeesSeq id [(2, 3)] ⟨"u", 1, 4, 1, 0, 1, 0, 0, 0, 0, 0⟩).l =
      (⟨"u", 1, 4, 1, 0, 1, 0, 0, 0, 0, 0⟩ : UniV3Position).l :=
  fee_monotonicity_and_collect id ⟨"u", 1, 4, 1, 0, 1, 0, 0, 0, 0, 0⟩ [(2, 3)]
    (by norm_num) (by norm_num) (by norm_num)

/-- Witness for C1 at `sq = id`, `l = 5`, `p = 2`, `a = 1`, `b = 4`. -/
theorem liquidityForAmounts_roundtrip_witness :
    (0 : ℚ) < 1 ∧ (1 : ℚ) < 4 ∧ (0 : ℚ) < 5 ∧
    liquidityForAmounts id (amountsForLiquidity id 5 2 1 4).1
      (amountsForLiquidity id 5 2 1 4).2 2 1 4 = 5 :=
  ⟨by decide, by decide, by decide,
    liquidityForAmounts_roundtrip id 5 2 1 4 (by decide) (by decide) (by decide)
      (by decide) (by decide) (by decide) (fun _ => by decide) (fun _ => by decide)
      (by decide) (by decide)⟩

/-! ### C8: one snapshot per history recorder per event -/

/-- Claim C8: for every event the backtest driver processes successfully, it
appends exactly one snapshot to `PortfolioHistory` and one to
`IntervalHistory`, and appends an entry to `RebalanceHistory` exactly when
the strategy's rebalance call returned a non-null action tag. -/
theorem backtestStep_histories {σ : Type} (sq : ℚ → ℚ) (strategy : Strategy σ)
    (st : BacktestState σ) (record : Record) (tag : Option String)
    (s' : σ) (pf' : Portfolio)
    (h : strategy st.strat record st.portfolio = .ok (tag, s', pf')) :
    ∃ st', backtestStep sq strategy st record = .ok st' ∧
      st'.portfolio_history.length = st.portfolio_history.length + 1 ∧
      st'.interval_history.length = st.interval_history.length + 1 ∧
      st'.rebalance_history.length =
        st.rebalance_history.length + (if tag.isSome then 1 else 0) ∧
      (tag = none → st'.rebalance_history = st.rebalance_history) := by
  cases tag with
  | none =>
      refine ⟨{ strat := s'
                portfolio := pf'
                portfolio_history := st.portfolio_history ++ [mkPortfolioSnapshot sq record pf']
                rebalance_history := st.rebalance_history ++ []
                interval_history := st.interval_history ++ [mkIntervalSnapshot record pf'] },
        ?_, by simp, by simp, by simp, by intro _; simp⟩
      simp only [backtestStep, h]
  | some t =>
      refine ⟨{ strat := s'
                portfolio := pf'
                portfolio_history := st.portfolio_history ++ [mkPortfolioSnapshot sq record pf']
                rebalance_history := st.rebalance_history ++ [(record.timestamp, t)]
                interval_history := st.interval_history ++ [mkIntervalSnapshot record pf'] },
        ?_, by simp, by simp, by simp, by intro ht; cases ht⟩
      simp only [backtestStep, h]

/-- Witness for C8: a one-event step of a strategy that always tags "mint",
starting from empty histories. -/
theorem backtestStep_histories_witness :
    ∃ st', backtestStep (σ := Unit) id (fun _ _ pf => .ok (some "mint", (), pf))
        ⟨(), ⟨[]⟩, [], [], []⟩ ⟨0, "swap", 1, 1⟩ = .ok st' ∧
      st'.portfolio_history.length =
        (⟨(), ⟨[]⟩, [], [], []⟩ : BacktestState Unit).portfolio_history.length + 1 ∧
      st'.interval_history.length =
        (⟨(), ⟨[]⟩, [], [], []⟩ : BacktestState Unit).interval_history.length + 1 ∧
      st'.rebalance_history.length =
        (⟨(), ⟨[]⟩, [], [], []⟩ : BacktestState Unit).rebalance_history.length +
          (if (some "mint").isSome then 1 else 0) ∧
      (some "mint" = none →
        st'.rebalance_history =
          (⟨(), ⟨[]⟩, [], [], []⟩ : BacktestState Unit).rebalance_history) :=
  backtestStep_histories id (fun _ _ pf => .ok (some "mint", (), pf))
    ⟨(), ⟨[]⟩, [], [], []⟩ ⟨0, "swap", 1, 1⟩ (some "mint") () ⟨[]⟩ rfl

/-! ### C9: non-swap events are a no-op for the example strategy -/

/-- Claim C9: for every event row whose kind is not "swap",
`StrategyCatchThePrice.rebalance` returns `None` immediately, leaving the
portfolio (its position set and every position's state) and the strategy
state unchanged. -/
theorem rebalance_non_swap_frame (sq : ℚ → ℚ) (eps : ℚ) (s : CatchState)
    (record : Record) (pf : Portfolio) (h : record.event ≠ "swap") :
    StrategyCatchThePrice.rebalance sq eps s record pf = .ok (none, s, pf) := by
  rw [StrategyCatchThePrice.rebalance, if_pos h]

/-- Witness for C9 at a "mint" event row and a nonempty portfolio. -/
theorem rebalance_non_swap_frame_witness :
    StrategyCatchThePrice.rebalance id 0 ⟨0, 0, 0, 1, 3600, none, none, none⟩
        ⟨0, "mint", 1, 1⟩ ⟨[Position.bi ⟨"v", 0, 0, 1, 2, none, none, 0⟩]⟩
      = .ok (none, ⟨0, 0, 0, 1, 3600, none, none, none⟩,
          ⟨[Position.bi ⟨"v", 0, 0, 1, 2, none, none, 0⟩]⟩) :=
  rebalance_non_swap_frame id 0 ⟨0, 0, 0, 1, 3600, none, none, none⟩
    ⟨0, "mint", 1, 1⟩ ⟨[Position.bi ⟨"v", 0, 0, 1, 2, none, none, 0⟩]⟩ (by decide)

/-! ### C10: interval bounds chosen by the example strategy -/

lemma tickPow_pos (t : ℤ) : 0 < tickPow t :=
  zpow_pos (by norm_num) t

lemma tickPow_min_lt_one : tickPow MIN_TICK < 1 :=
  zpow_lt_one_of_neg₀ (by norm_num) (by decide)

lemma one_lt_tickPow_max : 1 < tickPow MAX_TICK :=
  one_lt_zpow₀ (by norm_num) (by decide)

/-- Counterexample to C10 as stated: at `price = 1` and `width = 0` both of
the claim's side conditions hold (`price - width < 1.0001 ^ MAX_TICK` and
`price + width > 1.0001 ^ MIN_TICK`), yet the position created by
`create_pos` has `lower_price = upper_price = 1`, not
`lower_price < upper_price`. -/
theorem catch_bounds_counterexample :
    (1 : ℚ) - 0 < tickPow MAX_TICK ∧
    tickPow MIN_TICK < (1 : ℚ) + 0 ∧
    ¬ (catchNewUniPosition ⟨0, 0, 0, 0, 3600, none, none, none⟩ 1 1).lower_price <
        (catchNewUniPosition ⟨0, 0, 0, 0, 3600, none, none, none⟩ 1 1).upper_price := by
  have h1 : tickPow MIN_TICK < 1 := tickPow_min_lt_one
  have h2 : (1 : ℚ) < tickPow MAX_TICK := one_lt_tickPow_max
  refine ⟨by linarith, by linarith, ?_⟩
  show ¬ catchLowerPrice 1 0 < catchUpperPrice 1 0
  rw [catchLowerPrice, catchUpperPrice]
  have e1 : max (tickPow MIN_TICK) ((1 : ℚ) - 0) = 1 - 0 :=
    max_eq_right (by linarith)
  have e2 : min (tickPow MAX_TICK) ((1 : ℚ) + 0) = 1 + 0 :=
    min_eq_right (by linarith)
  rw [e1, e2]
  norm_num

/-- Claim C10, amended: every interval position created by
`StrategyCatchThePrice.create_pos` has
`lower_price = max(1.0001 ^ MIN_TICK, price - width)` and
`upper_price = min(1.0001 ^ MAX_TICK, price + width)`, so its lower bound is
strictly positive even when `price - width ≤ 0`; and
`lower_price < upper_price` holds whenever `width > 0` (the condition the
counterexample forces to be added), `price - width < 1.0001 ^ MAX_TICK` and
`price + width > 1.0001 ^ MIN_TICK`. -/
theorem catch_bounds_amended (s : CatchState) (n : ℕ) (price : ℚ) :
    (catchNewUniPosition s n price).lower_price
      = max (tickPow MIN_TICK) (price - s.width) ∧
    (catchNewUniPosition s n price).upper_price
      = min (tickPow MAX_TICK) (price + s.width) ∧
    0 < (catchNewUniPosition s n price).lower_price ∧
    (0 < s.width → price - s.width < tickPow MAX_TICK →
      tickPow MIN_TICK < price + s.width →
      (catchNewUniPosition s n price).lower_price
        < (catchNewUniPosition s n price).upper_price) := by
  refine ⟨rfl, rfl, ?_, ?_⟩
  · show 0 < catchLowerPrice price s.width
    exact lt_of_lt_of_le (tickPow_pos MIN_TICK) (le_max_left _ _)
  · intro hw h1 h2
    show catchLowerPrice price s.width < catchUpperPrice price s.width
    rw [catchLowerPrice, catchUpperPrice]
    have hlohi : tickPow MIN_TICK < tickPow MAX_TICK :=
      tickPow_min_lt_one.trans one_lt_tickPow_max
    exact lt_min (max_lt hlohi h1) (max_lt h2 (by linarith))

/-- Witness for the amended C10 at `price = 1`, `width = 1`. -/
theorem catch_bounds_amended_witness :
    (0 : ℚ) < 1 ∧
    (catchNewUniPosition ⟨0, 0, 0, 1, 3600, none, none, none⟩ 1 1).lower_price <
      (catchNewUniPosition ⟨0, 0, 0, 1, 3600, none, none, none⟩ 1 1).upper_price :=
  ⟨by norm_num,
   (catch_bounds_amended ⟨0, 0, 0, 1, 3600, none, none, none⟩ 1 1).2.2.2
     (by norm_num)
     (by
       show (1 : ℚ) - 1 < tickPow MAX_TICK
       have h := tickPow_pos MAX_TICK
       linarith)
     (by
       show tickPow MIN_TICK < (1 : ℚ) + 1
       have h := tickPow_min_lt_one
       linarith)⟩

end Mellow
